import Mathlib

/-!
Verification of the folder-tree-exporter traversal-and-render engine.

The development shallowly embeds the two Python implementations found in the
repository:

- src/src/folder_tree_exporter/cli.py: TreeNode, scan_directory_optimized
  (iterative, queue based), tree_to_lines_optimized (iterative, stack based),
  generate_tree, format_output and the sink handling of main.
- src/benchmark.py: generate_tree_original (the naive recursive
  implementation) and generate_tree_optimized (the same iterative pair).

The filesystem is modelled as an inductive tree FS: a file, or a directory
carrying a readable flag (false means os.scandir raises PermissionError or
OSError on it) and its entries in enumeration order.  Strings are Lean
strings; the Python operations name.lower(), name.startswith and the
lexicographic string comparison used by list.sort are modelled on the
underlying character lists by code point, which is exactly how Python
compares str values (str.lower is modelled per character, an adequate
rendering for the ASCII names involved).  list.sort is a stable ascending
sort by key; it is modelled with the stable List.insertionSort over the
translated key order.

The queue-based scanner of the source fills the children of each dequeued
node in one step, from that node's own listing only, so its resulting tree
is computed here by the equivalent structural recursion FS.scan; the
stack-based renderer tree_to_lines_optimized is embedded literally as the
stack machine renderLoop.  The Python loop pushes children in reversed
order and flags index 0 of the reversed enumeration, which makes the pop
order first .. last with exactly the final sibling flagged; withLast builds
the frames in that pop order.
-/

inductive FS where
  | file (name : String)
  | dir (name : String) (readable : Bool) (entries : List FS)

def FS.name : FS → String
  | .file n => n
  | .dir n _ _ => n

def FS.isDir : FS → Bool
  | .file _ => false
  | .dir _ _ _ => true

/-- Python s.startswith(c) for a one character prefix c: the first character
of s is c. -/
def headIs (c : Char) (s : String) : Bool :=
  match s.data with
  | [] => false
  | d :: _ => d == c

/-- Python s.lower(), as the code point sequence of the lowered string. -/
def lowerData (s : String) : List Char := s.data.map Char.toLower

/-- Python lexicographic comparison of two strings (as code point lists):
less or equal. -/
def lexLe : List Char → List Char → Bool
  | [], _ => true
  | _ :: _, [] => false
  | a :: as, b :: bs =>
    if a.toNat < b.toNat then true
    else if b.toNat < a.toNat then false
    else lexLe as bs

/-- The sort key comparison of both implementations.  cli.py line 57 sorts by
the tuple (not is_dir, name.lower()) and benchmark.py line 42 by
(is_file(), name.lower()); every modelled entry is a file or a directory, so
the two keys coincide.  Tuple order: strictly smaller first component, or
equal first components and lower-or-equal second. -/
def entryKeyLe (a b : FS) : Bool :=
  ((!a.isDir) == false && (!b.isDir) == true) ||
  ((!a.isDir) == (!b.isDir) && lexLe (lowerData a.name) (lowerData b.name))

def entryLe (a b : FS) : Prop := entryKeyLe a b = true

instance : DecidableRel entryLe := fun a b => by
  unfold entryLe; infer_instance

/-- The hidden-entry filter of cli.py lines 52-53: an entry is kept when
show_hidden is set or its name does not start with the dot. -/
def filterHidden (show_hidden : Bool) (l : List FS) : List FS :=
  l.filter (fun e => show_hidden || !(headIs '.' e.name))

/-- Python list.sort with the key of entryKeyLe: a stable ascending sort,
modelled by the stable insertion sort. -/
def sortEntries (l : List FS) : List FS := List.insertionSort entryLe l

mutual
def FS.allReadable : FS → Bool
  | .file _ => true
  | .dir _ ok cs => ok && FS.allReadableList cs
def FS.allReadableList : List FS → Bool
  | [] => true
  | e :: es => FS.allReadable e && FS.allReadableList es
end

/- No entry anywhere below the node is a directory whose name starts with
the opening bracket (the character that the optimized display rule of
cli.py line 104 tests for). -/
mutual
def FS.goodNames : FS → Bool
  | .file _ => true
  | .dir _ _ cs => FS.goodNamesList cs
def FS.goodNamesList : List FS → Bool
  | [] => true
  | e :: es =>
    (!(e.isDir) || !(headIs '[' e.name)) && FS.goodNames e && FS.goodNamesList es
end

/- Number of visible entries strictly below the node that an unbounded scan
reaches: hidden entries are dropped, unreadable directories contribute none
of their content. -/
mutual
def FS.visibleCount (show_hidden : Bool) : FS → Nat
  | .file _ => 0
  | .dir _ ok cs => if ok then FS.visibleCountList show_hidden cs else 0
def FS.visibleCountList (show_hidden : Bool) : List FS → Nat
  | [] => 0
  | e :: es =>
    (if show_hidden || !(headIs '.' e.name) then 1 + FS.visibleCount show_hidden e else 0)
      + FS.visibleCountList show_hidden es
end

/- Number of unreadable directories an unbounded scan tries to list: the
node itself when it is an unreadable directory, otherwise its visible
entries recursively. -/
mutual
def FS.deniedCount (show_hidden : Bool) : FS → Nat
  | .file _ => 0
  | .dir _ ok cs => if ok then FS.deniedCountList show_hidden cs else 1
def FS.deniedCountList (show_hidden : Bool) : List FS → Nat
  | [] => 0
  | e :: es =>
    (if show_hidden || !(headIs '.' e.name) then FS.deniedCount show_hidden e else 0)
      + FS.deniedCountList show_hidden es
end

/-- TreeNode of cli.py lines 19-27: name, is_dir, children, depth. -/
inductive TreeNode where
  | mk (name : String) (is_dir : Bool) (children : List TreeNode) (depth : Nat)

def TreeNode.name : TreeNode → String
  | .mk n _ _ _ => n

def TreeNode.is_dir : TreeNode → Bool
  | .mk _ b _ _ => b

def TreeNode.children : TreeNode → List TreeNode
  | .mk _ _ cs _ => cs

def TreeNode.depth : TreeNode → Nat
  | .mk _ _ _ d => d

mutual
def TreeNode.size : TreeNode → Nat
  | .mk _ _ cs _ => 1 + TreeNode.sizeList cs
def TreeNode.sizeList : List TreeNode → Nat
  | [] => 0
  | c :: cs => TreeNode.size c + TreeNode.sizeList cs
end

/- Every node of the tree, the root first, children in preorder. -/
mutual
def TreeNode.allNodes : TreeNode → List TreeNode
  | .mk n b cs d => .mk n b cs d :: TreeNode.allNodesList cs
def TreeNode.allNodesList : List TreeNode → List TreeNode
  | [] => []
  | c :: cs => TreeNode.allNodes c ++ TreeNode.allNodesList cs
end

/-- The depth cutoff test of cli.py line 43: a dequeued directory at depth d
is not expanded when max_depth is set and d is at least max_depth. -/
def scanStops (max_depth : Option Nat) (d : Nat) : Bool :=
  match max_depth with
  | none => false
  | some k => decide (d ≥ k)

/-- Denotation of the queue loop of scan_directory_optimized (cli.py lines
40-71).  A dequeued directory whose depth passes the cutoff lists its
entries; on success they are filtered, sorted and turned into child nodes at
depth d+1 (directories to be expanded in turn, which the queue does exactly
once per node, from that node's listing alone - hence this structural
recursion); on a listing failure a single sentinel child is appended
instead.  Files are never enqueued and keep empty children. -/
def FS.scan (show_hidden : Bool) (max_depth : Option Nat) (f : FS) (d : Nat) : TreeNode :=
  match f with
  | .file nm => .mk nm false [] d
  | .dir nm ok cs =>
    if scanStops max_depth d then .mk nm true [] d
    else if ok then
      .mk nm true ((sortEntries (filterHidden show_hidden cs)).attach.map
        (fun c => FS.scan show_hidden max_depth c.1 (d + 1))) d
    else .mk nm true [.mk "[Permission Denied]" false [] (d + 1)] d
termination_by sizeOf f
decreasing_by
  have h3 := (List.mem_filter.mp
    (((List.perm_insertionSort entryLe _).mem_iff).mp c.2)).1
  have := List.sizeOf_lt_of_mem h3
  simp only [FS.dir.sizeOf_spec]
  omega

/-- scan_directory_optimized of cli.py lines 29-72: the root node carries the
directory name, is a directory, and sits at depth 0. -/
def scan_directory_optimized (directory : FS) (max_depth : Option Nat)
    (show_hidden : Bool) : TreeNode :=
  FS.scan show_hidden max_depth directory 0

/-- The display name of cli.py lines 103-105: directories get the slash
suffix unless the name starts with the opening bracket. -/
def dispName (n : TreeNode) : String :=
  if n.is_dir && !(headIs '[' n.name) then n.name ++ "/" else n.name

/-- Connector glyph of a node: its own line marker (cli.py lines 95-99). -/
def connector (is_last : Bool) : String :=
  if is_last then "└── " else "├── "

/-- Indent suffix a node passes to its descendants (cli.py lines 97 and 100):
four spaces below a last sibling, bar plus three spaces otherwise. -/
def indentSuffix (is_last : Bool) : String :=
  if is_last then "    " else "│   "

/-- A sibling list in the pop order of the source stack (first sibling
popped first), each paired with the flag the source computes: Python pushes
reversed(children) and flags reversed index 0, so exactly the final sibling
carries true. -/
def withLast {α : Type} : List α → List (α × Bool)
  | [] => []
  | [a] => [(a, true)]
  | a :: b :: rest => (a, false) :: withLast (b :: rest)

/-- The stack loop of tree_to_lines_optimized (cli.py lines 91-113): pop a
frame (node, parent prefix, is_last), emit the line, push the children with
the extended prefix. -/
def renderLoop : List (TreeNode × String × Bool) → List String
  | [] => []
  | (node, parentPfx, is_last) :: rest =>
    (parentPfx ++ connector is_last ++ dispName node) ::
      renderLoop (((withLast node.children).map
        (fun p => (p.1, parentPfx ++ indentSuffix is_last, p.2))) ++ rest)
termination_by s => (s.map (fun fr => TreeNode.size fr.1)).sum
decreasing_by
  have hw : ∀ (cs : List TreeNode),
      ((withLast cs).map (fun p => TreeNode.size p.1)).sum = TreeNode.sizeList cs := by
    intro cs
    induction cs with
    | nil => simp [withLast, TreeNode.sizeList]
    | cons a rest2 ih =>
      cases rest2 with
      | nil => simp [withLast, TreeNode.sizeList, TreeNode.size]
      | cons b r2 =>
        simp only [withLast, List.map_cons, List.sum_cons, TreeNode.sizeList] at *
        omega
  simp only [List.map_append, List.sum_append, List.map_cons, List.sum_cons,
    List.map_map, Function.comp_def]
  have hn : TreeNode.size node = 1 + TreeNode.sizeList node.children := by
    cases node; simp [TreeNode.size, TreeNode.children]
  have hb := hw node.children
  omega

/-- tree_to_lines_optimized of cli.py lines 74-115: nothing for a childless
root, otherwise the stack machine seeded with the root children at the empty
prefix. -/
def tree_to_lines_optimized (root : TreeNode) : List String :=
  if root.children.isEmpty then []
  else renderLoop ((withLast root.children).map (fun p => (p.1, "", p.2)))

/- Rendering of one node as the specification states it: the line is the
accumulated prefix, the connector chosen by the last-sibling flag, and the
display name; descendants extend the prefix by the indent suffix of that
flag. -/
mutual
def renderSpecNode (pfx : String) (is_last : Bool) : TreeNode → List String
  | .mk n b cs d =>
    (pfx ++ connector is_last ++ dispName (.mk n b cs d)) ::
      renderSpecChildren (pfx ++ indentSuffix is_last) cs
def renderSpecChildren (pfx : String) : List TreeNode → List String
  | [] => []
  | [c] => renderSpecNode pfx true c
  | c :: c2 :: cs => renderSpecNode pfx false c ++ renderSpecChildren pfx (c2 :: cs)
end

/- Preorder visit of a node: each visited node with the prefix accumulated
from its ancestors and its own last-sibling flag. -/
mutual
def visitNode (pfx : String) (is_last : Bool) : TreeNode → List (String × Bool × TreeNode)
  | .mk n b cs d =>
    (pfx, is_last, .mk n b cs d) :: visitChildren (pfx ++ indentSuffix is_last) cs
def visitChildren (pfx : String) : List TreeNode → List (String × Bool × TreeNode)
  | [] => []
  | [c] => visitNode pfx true c
  | c :: c2 :: cs => visitNode pfx false c ++ visitChildren pfx (c2 :: cs)
end

/-- The rendered line of a visited node. -/
def lineOf (p : String × Bool × TreeNode) : String :=
  p.1 ++ connector p.2.1 ++ dispName p.2.2

/-- The depth cutoff test of benchmark.py line 24: the recursive
implementation returns nothing when max_depth is set and the current depth
exceeds it (strictly). -/
def origStops (max_depth : Option Nat) (d : Nat) : Bool :=
  match max_depth with
  | none => false
  | some k => decide (d > k)

/-- Denotation of generate_tree_original applied to an existing directory
(benchmark.py lines 22-73): list the entries, drop hidden ones unless
show_hidden, sort, and per entry emit the connector line followed by the
recursively produced sublines, each prefixed by the indent suffix.  An
unreadable directory yields the single sentinel line with the non-last
connector.  Called on a file it reports the not-a-directory error (the
recursion never does: only directories are recursed into). -/
def origScan (show_hidden : Bool) (max_depth : Option Nat) (f : FS) (d : Nat) :
    List String :=
  if origStops max_depth d then []
  else
    match f with
    | .file nm => ["Error: '" ++ nm ++ "' is not a directory"]
    | .dir _ true cs =>
      ((withLast ((sortEntries
          (if show_hidden then cs
           else cs.filter (fun e => !(headIs '.' e.name)))).attach)).map
        (fun it =>
          (connector it.2 ++
              (if it.1.1.isDir then it.1.1.name ++ "/" else it.1.1.name)) ::
            (if it.1.1.isDir then
              (origScan show_hidden max_depth it.1.1 (d + 1)).map
                (fun sub => indentSuffix it.2 ++ sub)
             else []))).flatten
    | .dir _ false _ => ["├── " ++ "[Permission Denied]"]
termination_by sizeOf f
decreasing_by
  have h1 : it.1.1 ∈ (if show_hidden then cs
      else cs.filter (fun e => !(headIs '.' e.name))) :=
    ((List.perm_insertionSort entryLe _).mem_iff).mp it.1.2
  have h3 : it.1.1 ∈ cs := by
    rcases show_hidden with _ | _
    · simp only [Bool.false_eq_true, if_false, List.mem_filter] at h1
      exact h1.1
    · simpa using h1
  have := List.sizeOf_lt_of_mem h3
  simp only [FS.dir.sizeOf_spec]
  omega

/-- The state of the root path as the operating system reports it: missing,
existing but not a directory, or a directory with the given content.  The
string is the raw command line argument used in the error messages. -/
inductive PathTarget where
  | absent (raw : String)
  | nonDir (raw : String)
  | dirAt (raw : String) (fs : FS)

/-- generate_tree_original of benchmark.py lines 22-73 at its top call
(current depth 0), with the existence and directory checks of lines 30-34. -/
def generate_tree_original (directory : PathTarget) (max_depth : Option Nat)
    (show_hidden : Bool) : List String :=
  match directory with
  | .absent raw => ["Error: Directory '" ++ raw ++ "' does not exist"]
  | .nonDir raw => ["Error: '" ++ raw ++ "' is not a directory"]
  | .dirAt _ fs => origScan show_hidden max_depth fs 0

/-- generate_tree of cli.py lines 117-135: validate the root, then scan and
render.  The scan and render functions are total here, so the broad except
branch of lines 134-135 is unreachable in the model. -/
def generate_tree (directory : PathTarget) (max_depth : Option Nat)
    (show_hidden : Bool) : List String :=
  match directory with
  | .absent raw => ["Error: Directory '" ++ raw ++ "' does not exist"]
  | .nonDir raw => ["Error: '" ++ raw ++ "' is not a directory"]
  | .dirAt _ fs =>
    tree_to_lines_optimized (scan_directory_optimized fs max_depth show_hidden)

/-- generate_tree_optimized of benchmark.py lines 155-168: textually the
same wrapper as generate_tree of cli.py. -/
def generate_tree_optimized (directory : PathTarget) (max_depth : Option Nat)
    (show_hidden : Bool) : List String :=
  match directory with
  | .absent raw => ["Error: Directory '" ++ raw ++ "' does not exist"]
  | .nonDir raw => ["Error: '" ++ raw ++ "' is not a directory"]
  | .dirAt _ fs =>
    tree_to_lines_optimized (scan_directory_optimized fs max_depth show_hidden)

/-- Shift of the depth bound that aligns the two cutoff rules: the recursive
implementation stops strictly above max_depth, the iterative one at
max_depth. -/
def bump : Option Nat → Option Nat
  | none => none
  | some k => some (k + 1)

/-- FS.scan with the hidden-entry filter removed: what the scanner does when
show_hidden is true. -/
def FS.scanAll (max_depth : Option Nat) (f : FS) (d : Nat) : TreeNode :=
  match f with
  | .file nm => .mk nm false [] d
  | .dir nm ok cs =>
    if scanStops max_depth d then .mk nm true [] d
    else if ok then
      .mk nm true ((sortEntries cs).attach.map
        (fun c => FS.scanAll max_depth c.1 (d + 1))) d
    else .mk nm true [.mk "[Permission Denied]" false [] (d + 1)] d
termination_by sizeOf f
decreasing_by
  have h3 := ((List.perm_insertionSort entryLe _).mem_iff).mp c.2
  have := List.sizeOf_lt_of_mem h3
  simp only [FS.dir.sizeOf_spec]
  omega

/-- format_output of cli.py lines 137-142: the resolved root name with the
slash header, then the tree lines, newline joined. -/
def format_output (root : FS) (tree_lines : List String) : String :=
  String.intercalate "\n" ((root.name ++ "/") :: tree_lines)

/-- The parsed command line of cli.py lines 144-185. -/
structure Args where
  directory : String
  file : Option String
  depth : Option Nat
  all : Bool
  print : Bool

/-- The ambient system state main interacts with: whether the root path
exists and is a directory, its content when it is, whether the pyperclip
module was imported successfully (cli.py lines 13-17), and whether the file write and the
clipboard copy succeed, with the exception texts they raise otherwise. -/
structure SysWorld where
  root_exists : Bool
  root_is_dir : Bool
  rootFS : FS
  clipboard_available : Bool
  file_write_ok : Bool
  file_error : String
  copy_ok : Bool
  copy_error : String

/-- Observable outcome of one run of main: the exit status, the lines
printed to standard output and the lines printed to the diagnostic
stream. -/
structure MainResult where
  exit_code : Nat
  stdout : List String
  stderr : List String

/-- main of cli.py lines 144-236 after argument parsing: root validation
(lines 187-194), tree generation and formatting (lines 196-205), and the
sink dispatch (lines 207-236).  sys.exit(1) is exit code 1; falling off the
end is exit code 0. -/
def main_run (args : Args) (w : SysWorld) : MainResult :=
  if w.root_exists = false then
    { exit_code := 1, stdout := [],
      stderr := ["Error: Directory '" ++ args.directory ++ "' does not exist"] }
  else if w.root_is_dir = false then
    { exit_code := 1, stdout := [],
      stderr := ["Error: '" ++ args.directory ++ "' is not a directory"] }
  else
    let generating := "Generating folder structure..."
    let tree_lines :=
      generate_tree (PathTarget.dirAt args.directory w.rootFS) args.depth args.all
    let output := format_output w.rootFS tree_lines
    match args.file with
    | some fpath =>
      if w.file_write_ok then
        { exit_code := 0, stdout := [],
          stderr := [generating, "Tree structure saved to '" ++ fpath ++ "'"] }
      else
        { exit_code := 1, stdout := [],
          stderr := [generating, "Error writing to file: " ++ w.file_error] }
    | none =>
      if args.print then
        { exit_code := 0, stdout := [output], stderr := [generating] }
      else if w.clipboard_available = false then
        { exit_code := 1, stdout := [],
          stderr := [generating,
            "Error: pyperclip not installed. Use --print or --file instead.",
            "Install with: rye add pyperclip"] }
      else if w.copy_ok then
        { exit_code := 0, stdout := [],
          stderr := [generating,
            "Tree structure copied to clipboard! (" ++
              toString tree_lines.length ++ " items)"] }
      else
        { exit_code := 0, stdout := ["Falling back to print:", output],
          stderr := [generating, "Error copying to clipboard: " ++ w.copy_error] }

/-- The sibling order the specification states: a directory never follows a
file, and inside one class the lowered names ascend. -/
def siblingLe (a b : TreeNode) : Prop :=
  (a.is_dir ≠ b.is_dir → a.is_dir = true) ∧
  (a.is_dir = b.is_dir → lexLe (lowerData a.name) (lowerData b.name) = true)

/-! ## Small accessors and structural facts -/

@[simp] theorem TreeNode.name_mk (n : String) (b : Bool) (cs : List TreeNode) (d : Nat) :
    (TreeNode.mk n b cs d).name = n := rfl

@[simp] theorem TreeNode.is_dir_mk (n : String) (b : Bool) (cs : List TreeNode) (d : Nat) :
    (TreeNode.mk n b cs d).is_dir = b := rfl

@[simp] theorem TreeNode.children_mk (n : String) (b : Bool) (cs : List TreeNode) (d : Nat) :
    (TreeNode.mk n b cs d).children = cs := rfl

@[simp] theorem TreeNode.depth_mk (n : String) (b : Bool) (cs : List TreeNode) (d : Nat) :
    (TreeNode.mk n b cs d).depth = d := rfl

theorem TreeNode.size_mk (n : String) (b : Bool) (cs : List TreeNode) (d : Nat) :
    (TreeNode.mk n b cs d).size = 1 + TreeNode.sizeList cs := rfl

theorem TreeNode.size_pos (t : TreeNode) : 1 ≤ t.size := by
  cases t
  rw [TreeNode.size_mk]
  omega

@[simp] theorem TreeNode.allNodes_mk (n : String) (b : Bool) (cs : List TreeNode) (d : Nat) :
    (TreeNode.mk n b cs d).allNodes = TreeNode.mk n b cs d :: TreeNode.allNodesList cs := rfl

@[simp] theorem TreeNode.allNodesList_nil : TreeNode.allNodesList [] = [] := rfl

@[simp] theorem TreeNode.allNodesList_cons (c : TreeNode) (cs : List TreeNode) :
    TreeNode.allNodesList (c :: cs) = c.allNodes ++ TreeNode.allNodesList cs := rfl

theorem mem_allNodesList {n : TreeNode} {cs : List TreeNode} :
    n ∈ TreeNode.allNodesList cs ↔ ∃ c ∈ cs, n ∈ c.allNodes := by
  induction cs with
  | nil => simp
  | cons c t ih => simp [ih]

@[simp] theorem withLast_nil {α : Type} : withLast ([] : List α) = [] := rfl

@[simp] theorem withLast_single {α : Type} (a : α) : withLast [a] = [(a, true)] := rfl

@[simp] theorem withLast_cons2 {α : Type} (a b : α) (l : List α) :
    withLast (a :: b :: l) = (a, false) :: withLast (b :: l) := rfl

theorem withLast_map {α β : Type} (g : α → β) (l : List α) :
    withLast (l.map g) = (withLast l).map (fun p => (g p.1, p.2)) := by
  induction l with
  | nil => rfl
  | cons a t ih =>
    cases t with
    | nil => rfl
    | cons b r =>
      simp only [List.map_cons] at ih ⊢
      rw [withLast_cons2, withLast_cons2, List.map_cons, ih]

theorem withLast_mem {α : Type} {p : α × Bool} {l : List α} (h : p ∈ withLast l) :
    p.1 ∈ l := by
  induction l with
  | nil => simp [withLast] at h
  | cons a t ih =>
    cases t with
    | nil =>
      rw [withLast_single, List.mem_singleton] at h
      subst h
      exact List.mem_singleton.mpr rfl
    | cons b r =>
      rw [withLast_cons2, List.mem_cons] at h
      rcases h with h | h
      · subst h; exact List.mem_cons_self _ _
      · exact List.mem_cons_of_mem _ (ih h)

theorem withLast_fst {α : Type} (l : List α) : (withLast l).map (fun p => p.1) = l := by
  induction l with
  | nil => rfl
  | cons a t ih =>
    cases t with
    | nil => rfl
    | cons b r => rw [withLast_cons2, List.map_cons, ih]

theorem withLast_sizes (cs : List TreeNode) :
    ((withLast cs).map (fun p => TreeNode.size p.1)).sum = TreeNode.sizeList cs := by
  induction cs with
  | nil => rfl
  | cons a t ih =>
    cases t with
    | nil => simp [TreeNode.sizeList]
    | cons b r =>
      rw [withLast_cons2, List.map_cons, List.sum_cons, ih]
      rfl

theorem withLast_flags {α : Type} (l : List α) :
    (withLast l).map (fun p => p.2) =
      List.replicate (l.length - 1) false ++ (if l.length = 0 then [] else [true]) := by
  induction l with
  | nil => rfl
  | cons a t ih =>
    cases t with
    | nil => rfl
    | cons b r =>
      rw [withLast_cons2, List.map_cons, ih]
      have h1 : (a :: b :: r).length - 1 = (b :: r).length := by simp
      have h2 : (b :: r).length - 1 + 1 = (b :: r).length := by simp
      rw [h1, ← h2]
      simp [List.replicate_succ]

theorem withLast_attach_map {α : Type} {β : Type} (l : List α) (F : α → Bool → β) :
    (withLast l.attach).map (fun it => F it.1.1 it.2) =
      (withLast l).map (fun q => F q.1 q.2) := by
  have h1 : l.attach.map (fun x => x.1) = l := by
    simp
  conv_rhs => rw [← h1]
  rw [withLast_map, List.map_map]
  rfl

/-! ## Unfolding equations for the well-founded definitions -/

theorem scan_file (sh : Bool) (md : Option Nat) (nm : String) (d : Nat) :
    FS.scan sh md (FS.file nm) d = .mk nm false [] d := by
  conv_lhs => rw [FS.scan.eq_def]

theorem scan_dir (sh : Bool) (md : Option Nat) (nm : String) (ok : Bool)
    (cs : List FS) (d : Nat) :
    FS.scan sh md (FS.dir nm ok cs) d =
      if scanStops md d then .mk nm true [] d
      else if ok then
        .mk nm true ((sortEntries (filterHidden sh cs)).map
          (fun c => FS.scan sh md c (d + 1))) d
      else .mk nm true [.mk "[Permission Denied]" false [] (d + 1)] d := by
  conv_lhs => rw [FS.scan.eq_def]
  simp [List.map_attach]

theorem scanAll_file (md : Option Nat) (nm : String) (d : Nat) :
    FS.scanAll md (FS.file nm) d = .mk nm false [] d := by
  conv_lhs => rw [FS.scanAll.eq_def]

theorem scanAll_dir (md : Option Nat) (nm : String) (ok : Bool)
    (cs : List FS) (d : Nat) :
    FS.scanAll md (FS.dir nm ok cs) d =
      if scanStops md d then .mk nm true [] d
      else if ok then
        .mk nm true ((sortEntries cs).map (fun c => FS.scanAll md c (d + 1))) d
      else .mk nm true [.mk "[Permission Denied]" false [] (d + 1)] d := by
  conv_lhs => rw [FS.scanAll.eq_def]
  simp [List.map_attach]

theorem renderLoop_nil : renderLoop [] = [] := by
  conv_lhs => rw [renderLoop.eq_def]

theorem renderLoop_cons (node : TreeNode) (pp : String) (il : Bool)
    (rest : List (TreeNode × String × Bool)) :
    renderLoop ((node, pp, il) :: rest) =
      (pp ++ connector il ++ dispName node) ::
        renderLoop (((withLast node.children).map
          (fun p => (p.1, pp ++ indentSuffix il, p.2))) ++ rest) := by
  conv_lhs => rw [renderLoop.eq_def]

theorem filterHidden_eq (sh : Bool) (cs : List FS) :
    (if sh = true then cs else cs.filter (fun e => !(headIs '.' e.name))) =
      filterHidden sh cs := by
  cases sh
  · simp [filterHidden]
  · simp [filterHidden]

theorem origScan_stop (sh : Bool) (md : Option Nat) (f : FS) (d : Nat)
    (h : origStops md d = true) : origScan sh md f d = [] := by
  rw [origScan.eq_def]
  simp [h]

theorem origScan_file (sh : Bool) (md : Option Nat) (nm : String) (d : Nat) :
    origScan sh md (FS.file nm) d =
      if origStops md d then [] else ["Error: '" ++ nm ++ "' is not a directory"] := by
  conv_lhs => rw [origScan.eq_def]

theorem origScan_denied (sh : Bool) (md : Option Nat) (nm : String)
    (cs : List FS) (d : Nat) :
    origScan sh md (FS.dir nm false cs) d =
      if origStops md d then [] else ["├── " ++ "[Permission Denied]"] := by
  conv_lhs => rw [origScan.eq_def]

theorem origScan_dir (sh : Bool) (md : Option Nat) (nm : String)
    (cs : List FS) (d : Nat) :
    origScan sh md (FS.dir nm true cs) d =
      if origStops md d then []
      else ((withLast (sortEntries (filterHidden sh cs))).map
        (fun q =>
          (connector q.2 ++ (if q.1.isDir then q.1.name ++ "/" else q.1.name)) ::
            (if q.1.isDir then
              (origScan sh md q.1 (d + 1)).map (fun sub => indentSuffix q.2 ++ sub)
             else []))).flatten := by
  conv_lhs => rw [origScan.eq_def]
  by_cases h : origStops md d = true
  · simp [h]
  · simp only [h, if_false, Bool.false_eq_true]
    rw [filterHidden_eq]
    rw [withLast_attach_map (sortEntries (filterHidden sh cs))
      (fun x fl =>
        (connector fl ++ (if x.isDir then x.name ++ "/" else x.name)) ::
          (if x.isDir then
            (origScan sh md x (d + 1)).map (fun sub => indentSuffix fl ++ sub)
           else []))]

/-! ## The sort order is a total preorder -/

theorem lexLe_cons_iff (a b : Char) (as bs : List Char) :
    lexLe (a :: as) (b :: bs) = true ↔
      (a.toNat < b.toNat ∨ (a.toNat = b.toNat ∧ lexLe as bs = true)) := by
  simp only [lexLe]
  by_cases h1 : a.toNat < b.toNat
  · simp [h1]
  · by_cases h2 : b.toNat < a.toNat
    · rw [if_neg h1, if_pos h2]
      constructor
      · intro h; exact absurd h (by simp)
      · intro h; rcases h with h | ⟨h, _⟩ <;> omega
    · have h3 : a.toNat = b.toNat := by omega
      simp [h1, h2, h3]

theorem lexLe_trans : ∀ (xs ys zs : List Char),
    lexLe xs ys = true → lexLe ys zs = true → lexLe xs zs = true := by
  intro xs
  induction xs with
  | nil => intro ys zs h1 h2; rfl
  | cons a as ih =>
    intro ys zs h1 h2
    cases ys with
    | nil => simp [lexLe] at h1
    | cons b bs =>
      cases zs with
      | nil => simp [lexLe] at h2
      | cons c cz =>
        rw [lexLe_cons_iff] at h1 h2 ⊢
        rcases h1 with h1 | ⟨h1, h1r⟩ <;> rcases h2 with h2 | ⟨h2, h2r⟩
        · exact Or.inl (by omega)
        · exact Or.inl (by omega)
        · exact Or.inl (by omega)
        · exact Or.inr ⟨by omega, ih bs cz h1r h2r⟩

theorem lexLe_total : ∀ (xs ys : List Char),
    lexLe xs ys = true ∨ lexLe ys xs = true := by
  intro xs
  induction xs with
  | nil => intro ys; exact Or.inl rfl
  | cons a as ih =>
    intro ys
    cases ys with
    | nil => exact Or.inr rfl
    | cons b bs =>
      rw [lexLe_cons_iff, lexLe_cons_iff]
      rcases Nat.lt_trichotomy a.toNat b.toNat with h1 | h1 | h1
      · exact Or.inl (Or.inl h1)
      · rcases ih bs with h | h
        · exact Or.inl (Or.inr ⟨h1, h⟩)
        · exact Or.inr (Or.inr ⟨h1.symm, h⟩)
      · exact Or.inr (Or.inl h1)

theorem entryLe_iff (a b : FS) :
    entryLe a b ↔ ((a.isDir = true ∧ b.isDir = false) ∨
      (a.isDir = b.isDir ∧ lexLe (lowerData a.name) (lowerData b.name) = true)) := by
  unfold entryLe entryKeyLe
  cases ha : a.isDir <;> cases hb : b.isDir <;> simp [ha, hb]

instance : IsTrans FS entryLe := ⟨by
  intro a b c h1 h2
  rw [entryLe_iff] at h1 h2 ⊢
  rcases h1 with ⟨ha, hb⟩ | ⟨hab, hl1⟩
  · rcases h2 with ⟨hb2, hc⟩ | ⟨hbc, hl2⟩
    · rw [hb] at hb2; exact absurd hb2 (by simp)
    · exact Or.inl ⟨ha, hbc ▸ hb⟩
  · rcases h2 with ⟨hb2, hc⟩ | ⟨hbc, hl2⟩
    · exact Or.inl ⟨hab.trans hb2, hc⟩
    · exact Or.inr ⟨hab.trans hbc, lexLe_trans _ _ _ hl1 hl2⟩⟩

instance : IsTotal FS entryLe := ⟨by
  intro a b
  rw [entryLe_iff, entryLe_iff]
  cases ha : a.isDir <;> cases hb : b.isDir <;> simp [ha, hb]
  · exact lexLe_total _ _
  · exact lexLe_total _ _⟩

theorem sortEntries_pairwise (l : List FS) :
    List.Pairwise entryLe (sortEntries l) :=
  List.sorted_insertionSort entryLe l

theorem sortEntries_perm (l : List FS) : List.Perm (sortEntries l) l :=
  List.perm_insertionSort entryLe l

theorem mem_sortEntries {x : FS} {l : List FS} : x ∈ sortEntries l ↔ x ∈ l :=
  (sortEntries_perm l).mem_iff

theorem mem_filterHidden {sh : Bool} {x : FS} {l : List FS} :
    x ∈ filterHidden sh l ↔ x ∈ l ∧ (sh || !(headIs '.' x.name)) = true := by
  simp [filterHidden, List.mem_filter]

/-! ## The scanner preserves name, kind and depth of the node it builds -/

theorem scan_name (sh : Bool) (md : Option Nat) (f : FS) (d : Nat) :
    (FS.scan sh md f d).name = f.name := by
  cases f with
  | file nm => rw [scan_file]; rfl
  | dir nm ok cs => rw [scan_dir]; split_ifs <;> rfl

theorem scan_is_dir (sh : Bool) (md : Option Nat) (f : FS) (d : Nat) :
    (FS.scan sh md f d).is_dir = f.isDir := by
  cases f with
  | file nm => rw [scan_file]; rfl
  | dir nm ok cs => rw [scan_dir]; split_ifs <;> rfl

theorem scan_depth (sh : Bool) (md : Option Nat) (f : FS) (d : Nat) :
    (FS.scan sh md f d).depth = d := by
  cases f with
  | file nm => rw [scan_file]; rfl
  | dir nm ok cs => rw [scan_dir]; split_ifs <;> rfl

theorem allReadableList_mem {cs : List FS} (h : FS.allReadableList cs = true) :
    ∀ c ∈ cs, FS.allReadable c = true := by
  induction cs with
  | nil => intro c hc; simp at hc
  | cons e es ih =>
    rw [FS.allReadableList, Bool.and_eq_true] at h
    intro c hc
    rcases List.mem_cons.mp hc with rfl | hc
    · exact h.1
    · exact ih h.2 c hc

theorem goodNamesList_mem {cs : List FS} (h : FS.goodNamesList cs = true) :
    ∀ c ∈ cs, ((!(c.isDir) || !(headIs '[' c.name)) = true ∧ FS.goodNames c = true) := by
  induction cs with
  | nil => intro c hc; simp at hc
  | cons e es ih =>
    rw [FS.goodNamesList, Bool.and_eq_true, Bool.and_eq_true] at h
    intro c hc
    rcases List.mem_cons.mp hc with rfl | hc
    · exact ⟨h.1.1, h.1.2⟩
    · exact ih h.2 c hc

/-! ## Renderer equations -/

theorem renderSpecChildren_nil (pfx : String) : renderSpecChildren pfx [] = [] := rfl

theorem renderSpecChildren_single (pfx : String) (c : TreeNode) :
    renderSpecChildren pfx [c] = renderSpecNode pfx true c := rfl

theorem renderSpecChildren_cons2 (pfx : String) (c c2 : TreeNode) (cs : List TreeNode) :
    renderSpecChildren pfx (c :: c2 :: cs) =
      renderSpecNode pfx false c ++ renderSpecChildren pfx (c2 :: cs) := rfl

theorem renderSpecNode_mk (pfx : String) (il : Bool) (n : String) (b : Bool)
    (cs : List TreeNode) (d : Nat) :
    renderSpecNode pfx il (.mk n b cs d) =
      (pfx ++ connector il ++ dispName (.mk n b cs d)) ::
        renderSpecChildren (pfx ++ indentSuffix il) cs := rfl

theorem visitChildren_nil (pfx : String) : visitChildren pfx [] = [] := rfl

theorem visitChildren_single (pfx : String) (c : TreeNode) :
    visitChildren pfx [c] = visitNode pfx true c := rfl

theorem visitChildren_cons2 (pfx : String) (c c2 : TreeNode) (cs : List TreeNode) :
    visitChildren pfx (c :: c2 :: cs) =
      visitNode pfx false c ++ visitChildren pfx (c2 :: cs) := rfl

theorem visitNode_mk (pfx : String) (il : Bool) (n : String) (b : Bool)
    (cs : List TreeNode) (d : Nat) :
    visitNode pfx il (.mk n b cs d) =
      (pfx, il, TreeNode.mk n b cs d) :: visitChildren (pfx ++ indentSuffix il) cs := rfl

theorem renderSpecNode_eq (pfx : String) (il : Bool) (n : TreeNode) :
    renderSpecNode pfx il n =
      (pfx ++ connector il ++ dispName n) ::
        renderSpecChildren (pfx ++ indentSuffix il) n.children := by
  cases n; rfl

theorem renderSpecChildren_flatten (pfx : String) (cs : List TreeNode) :
    renderSpecChildren pfx cs =
      ((withLast cs).map (fun p => renderSpecNode pfx p.2 p.1)).flatten := by
  induction cs with
  | nil => rfl
  | cons c t ih =>
    cases t with
    | nil => simp [renderSpecChildren_single]
    | cons c2 r =>
      rw [renderSpecChildren_cons2, withLast_cons2, List.map_cons,
        List.flatten_cons, ih]

/-! ## The stack machine renders exactly the specified lines -/

theorem renderLoop_frames (N : Nat) :
    ∀ (l : List (TreeNode × Bool)) (pfx : String)
      (rest : List (TreeNode × String × Bool)),
      (l.map (fun p => TreeNode.size p.1)).sum ≤ N →
      renderLoop (l.map (fun p => (p.1, pfx, p.2)) ++ rest) =
        (l.map (fun p => renderSpecNode pfx p.2 p.1)).flatten ++ renderLoop rest := by
  induction N with
  | zero =>
    intro l pfx rest hbound
    cases l with
    | nil => simp
    | cons p t =>
      exfalso
      rw [List.map_cons, List.sum_cons] at hbound
      have := TreeNode.size_pos p.1
      omega
  | succ n ih =>
    intro l pfx rest hbound
    cases l with
    | nil => simp
    | cons p t =>
      obtain ⟨node, il⟩ := p
      rw [List.map_cons, List.sum_cons] at hbound
      dsimp only at hbound
      rw [List.map_cons, List.cons_append, renderLoop_cons]
      dsimp only
      have hsz := withLast_sizes node.children
      have hnode : TreeNode.size node = 1 + TreeNode.sizeList node.children := by
        cases node; rfl
      rw [ih (withLast node.children) (pfx ++ indentSuffix il)
        (t.map (fun q => (q.1, pfx, q.2)) ++ rest) (by rw [hsz]; omega)]
      rw [ih t pfx rest (by have := TreeNode.size_pos node; omega)]
      rw [List.map_cons, List.flatten_cons, renderSpecNode_eq,
        renderSpecChildren_flatten]
      simp [List.append_assoc]

theorem tree_to_lines_eq_spec (root : TreeNode) :
    tree_to_lines_optimized root = renderSpecChildren "" root.children := by
  unfold tree_to_lines_optimized
  by_cases h : root.children.isEmpty
  · rw [if_pos h]
    rw [List.isEmpty_iff.mp h]
    rfl
  · rw [if_neg h]
    have := renderLoop_frames ((withLast root.children).map
        (fun p => TreeNode.size p.1)).sum (withLast root.children) "" [] (le_refl _)
    rw [List.append_nil] at this
    rw [this, renderLoop_nil, List.append_nil, renderSpecChildren_flatten]

/-! ## Prefix accumulation: rendering under a longer prefix prepends it -/

mutual
theorem renderSpecNode_map_pfx (p q : String) (il : Bool) (n : TreeNode) :
    (renderSpecNode q il n).map (fun s => p ++ s) = renderSpecNode (p ++ q) il n := by
  cases n with
  | mk nm b cs d =>
    rw [renderSpecNode_mk, renderSpecNode_mk, List.map_cons]
    rw [renderSpecChildren_map_pfx p (q ++ indentSuffix il) cs]
    rw [← String.append_assoc, ← String.append_assoc, ← String.append_assoc]
theorem renderSpecChildren_map_pfx (p q : String) (cs : List TreeNode) :
    (renderSpecChildren q cs).map (fun s => p ++ s) = renderSpecChildren (p ++ q) cs := by
  cases cs with
  | nil => rfl
  | cons c t =>
    cases t with
    | nil =>
      rw [renderSpecChildren_single, renderSpecChildren_single]
      exact renderSpecNode_map_pfx p q true c
    | cons c2 r =>
      rw [renderSpecChildren_cons2, renderSpecChildren_cons2, List.map_append]
      rw [renderSpecNode_map_pfx p q false c]
      rw [renderSpecChildren_map_pfx p q (c2 :: r)]
end

/-! ## The rendered lines are the visited nodes mapped to their lines -/

mutual
theorem renderSpecNode_eq_visit (pfx : String) (il : Bool) (n : TreeNode) :
    renderSpecNode pfx il n = (visitNode pfx il n).map lineOf := by
  cases n with
  | mk nm b cs d =>
    rw [renderSpecNode_mk, visitNode_mk, List.map_cons]
    rw [renderSpecChildren_eq_visit (pfx ++ indentSuffix il) cs]
    rfl
theorem renderSpecChildren_eq_visit (pfx : String) (cs : List TreeNode) :
    renderSpecChildren pfx cs = (visitChildren pfx cs).map lineOf := by
  cases cs with
  | nil => rfl
  | cons c t =>
    cases t with
    | nil =>
      rw [renderSpecChildren_single, visitChildren_single]
      exact renderSpecNode_eq_visit pfx true c
    | cons c2 r =>
      rw [renderSpecChildren_cons2, visitChildren_cons2, List.map_append]
      rw [renderSpecNode_eq_visit pfx false c]
      rw [renderSpecChildren_eq_visit pfx (c2 :: r)]
end

/-! ## The visited nodes are exactly the nodes of the tree, in preorder -/

mutual
theorem visitNode_nodes (pfx : String) (il : Bool) (n : TreeNode) :
    (visitNode pfx il n).map (fun p => p.2.2) = n.allNodes := by
  cases n with
  | mk nm b cs d =>
    rw [visitNode_mk, List.map_cons, TreeNode.allNodes_mk]
    rw [visitChildren_nodes (pfx ++ indentSuffix il) cs]
theorem visitChildren_nodes (pfx : String) (cs : List TreeNode) :
    (visitChildren pfx cs).map (fun p => p.2.2) = TreeNode.allNodesList cs := by
  cases cs with
  | nil => rfl
  | cons c t =>
    cases t with
    | nil =>
      rw [visitChildren_single, TreeNode.allNodesList_cons, TreeNode.allNodesList_nil,
        List.append_nil]
      exact visitNode_nodes pfx true c
    | cons c2 r =>
      rw [visitChildren_cons2, List.map_append, TreeNode.allNodesList_cons]
      rw [visitNode_nodes pfx false c]
      rw [visitChildren_nodes pfx (c2 :: r)]
end

/-! ## Equivalence of the recursive and the iterative implementation -/

theorem origStops_eq_scanStops (md : Option Nat) (d : Nat) :
    origStops md d = scanStops (bump md) d := by
  cases md with
  | none => rfl
  | some k =>
    simp only [origStops, bump, scanStops, decide_eq_decide]
    omega

mutual
theorem origScan_eq_scan (f : FS) : ∀ (sh : Bool) (md : Option Nat) (d : Nat),
    FS.allReadable f = true → FS.goodNames f = true → f.isDir = true →
    origScan sh md f d =
      renderSpecChildren "" (FS.scan sh (bump md) f d).children := by
  intro sh md d hread hgood hdir
  cases f with
  | file nm => simp [FS.isDir] at hdir
  | dir nm ok cs =>
    rw [FS.allReadable, Bool.and_eq_true] at hread
    rw [FS.goodNames] at hgood
    obtain ⟨hok, hlist⟩ := hread
    subst hok
    rw [origScan_dir, scan_dir, origStops_eq_scanStops]
    by_cases hstop : scanStops (bump md) d = true
    · rw [if_pos hstop, if_pos hstop]
      rfl
    · rw [if_neg hstop, if_neg hstop, if_pos rfl, TreeNode.children_mk]
      rw [renderSpecChildren_flatten,
        withLast_map (fun c => FS.scan sh (bump md) c (d + 1))]
      rw [List.map_map]
      apply congrArg List.flatten
      apply List.map_congr_left
      intro q hq
      have hqcs : q.1 ∈ cs :=
        (mem_filterHidden.mp (mem_sortEntries.mp (withLast_mem hq))).1
      have hqread := allReadableList_mem hlist q.1 hqcs
      have hqgood := goodNamesList_mem hgood q.1 hqcs
      simp only [Function.comp]
      rw [renderSpecNode_eq]
      simp only [String.empty_append]
      unfold dispName
      rw [scan_name, scan_is_dir]
      cases hq1 : q.1 with
      | file nm2 =>
        rw [scan_file, TreeNode.children_mk, renderSpecChildren_nil]
        simp [dispName, FS.isDir, FS.name]
      | dir nm2 ok2 cs2 =>
        have hok2 : ok2 = true := by
          rw [hq1, FS.allReadable, Bool.and_eq_true] at hqread
          exact hqread.1
        subst hok2
        have hbr : headIs '[' nm2 = false := by
          rw [hq1] at hqgood
          simpa [FS.isDir, FS.name] using hqgood.1
        have hIH := origScan_eq_scan_list cs q.1 hqcs sh md (d + 1)
        rw [hq1] at hIH hqread
        have hIH2 := hIH hqread (by rw [hq1] at hqgood; exact hqgood.2) (by rfl)
        rw [hIH2]
        rw [renderSpecChildren_map_pfx (indentSuffix q.2) ""]
        rw [String.append_empty]
        simp [dispName, FS.isDir, FS.name, hbr]
theorem origScan_eq_scan_list (cs : List FS) : ∀ c ∈ cs, ∀ (sh : Bool)
    (md : Option Nat) (d : Nat),
    FS.allReadable c = true → FS.goodNames c = true → c.isDir = true →
    origScan sh md c d =
      renderSpecChildren "" (FS.scan sh (bump md) c d).children := by
  intro c hc
  cases cs with
  | nil => simp at hc
  | cons e es =>
    rcases List.mem_cons.mp hc with rfl | hc2
    · exact origScan_eq_scan c
    · exact origScan_eq_scan_list es c hc2
end

/-! ## Counting the nodes of a scan with no depth bound -/

theorem allNodesList_length (ts : List TreeNode) :
    (TreeNode.allNodesList ts).length = (ts.map (fun t => t.allNodes.length)).sum := by
  induction ts with
  | nil => rfl
  | cons c r ih =>
    rw [TreeNode.allNodesList_cons, List.length_append, ih, List.map_cons,
      List.sum_cons]

theorem countList_eq (sh : Bool) (F : FS → Nat) : ∀ (cs : List FS),
    (∀ c ∈ cs, F c = 1 + FS.visibleCount sh c + FS.deniedCount sh c) →
    ((filterHidden sh cs).map F).sum =
      FS.visibleCountList sh cs + FS.deniedCountList sh cs := by
  intro cs
  induction cs with
  | nil => intro _; rfl
  | cons e es ih =>
    intro h
    have he := h e (List.mem_cons_self _ _)
    have hes : ∀ c ∈ es, F c = 1 + FS.visibleCount sh c + FS.deniedCount sh c :=
      fun c hc => h c (List.mem_cons_of_mem _ hc)
    rw [FS.visibleCountList, FS.deniedCountList]
    have h2 := ih hes
    simp only [filterHidden] at h2 ⊢
    simp only [List.filter_cons]
    by_cases hp : (sh || !(headIs '.' e.name)) = true
    · simp only [if_pos hp, List.map_cons, List.sum_cons]
      rw [h2, he]
      omega
    · simp only [if_neg hp]
      rw [h2]
      omega

mutual
theorem scan_count (f : FS) : ∀ (sh : Bool) (d : Nat),
    (FS.scan sh none f d).allNodes.length =
      1 + FS.visibleCount sh f + FS.deniedCount sh f := by
  intro sh d
  cases f with
  | file nm => rw [scan_file]; rfl
  | dir nm ok cs =>
    rw [scan_dir]
    have hns : scanStops none d = false := rfl
    rw [hns, if_neg (by simp)]
    cases ok with
    | false =>
      rw [if_neg (by simp)]
      rfl
    | true =>
      rw [if_pos rfl, TreeNode.allNodes_mk, List.length_cons, allNodesList_length,
        List.map_map]
      have hperm : List.Perm
          ((sortEntries (filterHidden sh cs)).map
            ((fun t => t.allNodes.length) ∘ fun c => FS.scan sh none c (d + 1)))
          ((filterHidden sh cs).map
            ((fun t => t.allNodes.length) ∘ fun c => FS.scan sh none c (d + 1))) :=
        (sortEntries_perm (filterHidden sh cs)).map _
      rw [hperm.sum_eq]
      have hco := countList_eq sh
        ((fun t => t.allNodes.length) ∘ fun c => FS.scan sh none c (d + 1)) cs
        (fun c _ => by
          simp only [Function.comp]
          exact scan_count_list cs c (by assumption) sh (d + 1))
      rw [hco]
      rw [FS.visibleCount, FS.deniedCount, if_pos rfl, if_pos rfl]
      omega
theorem scan_count_list (cs : List FS) : ∀ c ∈ cs, ∀ (sh : Bool) (d : Nat),
    (FS.scan sh none c d).allNodes.length =
      1 + FS.visibleCount sh c + FS.deniedCount sh c := by
  intro c hc
  cases cs with
  | nil => simp at hc
  | cons e es =>
    rcases List.mem_cons.mp hc with rfl | hc2
    · exact scan_count c
    · exact scan_count_list es c hc2
end

/-! ## Sibling order of every scanned node -/

theorem entryLe_to_siblingLe {a b : FS} (sh : Bool) (md : Option Nat) (d : Nat)
    (h : entryLe a b) :
    siblingLe (FS.scan sh md a d) (FS.scan sh md b d) := by
  rw [entryLe_iff] at h
  constructor
  · intro hne
    rw [scan_is_dir, scan_is_dir] at hne
    rw [scan_is_dir]
    rcases h with ⟨ha, _⟩ | ⟨hab, _⟩
    · exact ha
    · exact absurd hab hne
  · intro heq
    rw [scan_is_dir, scan_is_dir] at heq
    rw [scan_name, scan_name]
    rcases h with ⟨ha, hb⟩ | ⟨_, hl⟩
    · rw [ha, hb] at heq; exact absurd heq (by simp)
    · exact hl

mutual
theorem scan_pairwise (f : FS) : ∀ (sh : Bool) (md : Option Nat) (d : Nat)
    (n : TreeNode), n ∈ (FS.scan sh md f d).allNodes →
    n.children.Pairwise siblingLe := by
  intro sh md d n hn
  cases f with
  | file nm =>
    rw [scan_file] at hn
    rw [TreeNode.allNodes_mk, TreeNode.allNodesList_nil] at hn
    rcases List.mem_singleton.mp hn with rfl
    simp
  | dir nm ok cs =>
    rw [scan_dir] at hn
    by_cases hstop : scanStops md d = true
    · rw [if_pos hstop] at hn
      rw [TreeNode.allNodes_mk, TreeNode.allNodesList_nil] at hn
      rcases List.mem_singleton.mp hn with rfl
      simp
    · rw [if_neg hstop] at hn
      cases ok with
      | false =>
        rw [if_neg (by simp)] at hn
        rw [TreeNode.allNodes_mk] at hn
        rcases List.mem_cons.mp hn with rfl | hn2
        · simp [List.pairwise_singleton]
        · simp only [TreeNode.allNodesList_cons, TreeNode.allNodes_mk,
            TreeNode.allNodesList_nil, List.append_nil] at hn2
          rcases List.mem_singleton.mp hn2 with rfl
          simp
      | true =>
        rw [if_pos rfl, TreeNode.allNodes_mk] at hn
        rcases List.mem_cons.mp hn with rfl | hn2
        · rw [TreeNode.children_mk]
          have hs := sortEntries_pairwise (filterHidden sh cs)
          exact List.Pairwise.map _
            (fun a b hab => entryLe_to_siblingLe sh md (d + 1) hab) hs
        · rcases mem_allNodesList.mp hn2 with ⟨c, hcmem, hnc⟩
          rcases List.mem_map.mp hcmem with ⟨x, hx, rfl⟩
          have hxcs : x ∈ cs := (mem_filterHidden.mp (mem_sortEntries.mp hx)).1
          exact scan_pairwise_list cs x hxcs sh md (d + 1) n hnc
theorem scan_pairwise_list (cs : List FS) : ∀ c ∈ cs, ∀ (sh : Bool)
    (md : Option Nat) (d : Nat) (n : TreeNode),
    n ∈ (FS.scan sh md c d).allNodes → n.children.Pairwise siblingLe := by
  intro c hc
  cases cs with
  | nil => simp at hc
  | cons e es =>
    rcases List.mem_cons.mp hc with rfl | hc2
    · exact scan_pairwise c
    · exact scan_pairwise_list es c hc2
end

/-! ## The hidden filter removes whole subtrees -/

mutual
theorem scan_hidden_free (f : FS) : ∀ (md : Option Nat) (d : Nat) (n : TreeNode),
    headIs '.' f.name = false → n ∈ (FS.scan false md f d).allNodes →
    headIs '.' n.name = false := by
  intro md d n hf hn
  cases f with
  | file nm =>
    rw [scan_file] at hn
    rw [TreeNode.allNodes_mk, TreeNode.allNodesList_nil] at hn
    rcases List.mem_singleton.mp hn with rfl
    exact hf
  | dir nm ok cs =>
    rw [scan_dir] at hn
    by_cases hstop : scanStops md d = true
    · rw [if_pos hstop] at hn
      rw [TreeNode.allNodes_mk, TreeNode.allNodesList_nil] at hn
      rcases List.mem_singleton.mp hn with rfl
      exact hf
    · rw [if_neg hstop] at hn
      cases ok with
      | false =>
        rw [if_neg (by simp)] at hn
        rw [TreeNode.allNodes_mk] at hn
        rcases List.mem_cons.mp hn with rfl | hn2
        · exact hf
        · simp only [TreeNode.allNodesList_cons, TreeNode.allNodes_mk,
            TreeNode.allNodesList_nil, List.append_nil] at hn2
          rcases List.mem_singleton.mp hn2 with rfl
          rw [TreeNode.name_mk]
          decide
      | true =>
        rw [if_pos rfl, TreeNode.allNodes_mk] at hn
        rcases List.mem_cons.mp hn with rfl | hn2
        · exact hf
        · rcases mem_allNodesList.mp hn2 with ⟨c, hcmem, hnc⟩
          rcases List.mem_map.mp hcmem with ⟨x, hx, rfl⟩
          have hxm := mem_filterHidden.mp (mem_sortEntries.mp hx)
          have hxcs : x ∈ cs := hxm.1
          have hxdot : headIs '.' x.name = false := by
            have := hxm.2
            simpa using this
          exact scan_hidden_free_list cs x hxcs md (d + 1) n hxdot hnc
theorem scan_hidden_free_list (cs : List FS) : ∀ c ∈ cs, ∀ (md : Option Nat)
    (d : Nat) (n : TreeNode), headIs '.' c.name = false →
    n ∈ (FS.scan false md c d).allNodes → headIs '.' n.name = false := by
  intro c hc
  cases cs with
  | nil => simp at hc
  | cons e es =>
    rcases List.mem_cons.mp hc with rfl | hc2
    · exact scan_hidden_free c
    · exact scan_hidden_free_list es c hc2
end

theorem filterHidden_true (l : List FS) : filterHidden true l = l := by
  simp [filterHidden]

mutual
theorem scan_true_eq_scanAll (f : FS) : ∀ (md : Option Nat) (d : Nat),
    FS.scan true md f d = FS.scanAll md f d := by
  intro md d
  cases f with
  | file nm => rw [scan_file, scanAll_file]
  | dir nm ok cs =>
    rw [scan_dir, scanAll_dir, filterHidden_true]
    by_cases hstop : scanStops md d = true
    · rw [if_pos hstop, if_pos hstop]
    · rw [if_neg hstop, if_neg hstop]
      cases ok with
      | false => rfl
      | true =>
        rw [if_pos rfl, if_pos rfl]
        have : (sortEntries cs).map (fun c => FS.scan true md c (d + 1)) =
            (sortEntries cs).map (fun c => FS.scanAll md c (d + 1)) := by
          apply List.map_congr_left
          intro x hx
          exact scan_true_eq_scanAll_list cs x (mem_sortEntries.mp hx) md (d + 1)
        rw [this]
theorem scan_true_eq_scanAll_list (cs : List FS) : ∀ c ∈ cs, ∀ (md : Option Nat)
    (d : Nat), FS.scan true md c d = FS.scanAll md c d := by
  intro c hc
  cases cs with
  | nil => simp at hc
  | cons e es =>
    rcases List.mem_cons.mp hc with rfl | hc2
    · exact scan_true_eq_scanAll c
    · exact scan_true_eq_scanAll_list es c hc2
end

/-! ## Depth bound of a bounded scan -/

mutual
theorem scan_depth_le (f : FS) : ∀ (sh : Bool) (k d : Nat), d ≤ k →
    ∀ n ∈ (FS.scan sh (some k) f d).allNodes, n.depth ≤ k := by
  intro sh k d hd n hn
  cases f with
  | file nm =>
    rw [scan_file] at hn
    rw [TreeNode.allNodes_mk, TreeNode.allNodesList_nil] at hn
    rcases List.mem_singleton.mp hn with rfl
    simpa using hd
  | dir nm ok cs =>
    rw [scan_dir] at hn
    by_cases hstop : scanStops (some k) d = true
    · rw [if_pos hstop] at hn
      rw [TreeNode.allNodes_mk, TreeNode.allNodesList_nil] at hn
      rcases List.mem_singleton.mp hn with rfl
      simpa using hd
    · have hdk : d < k := by
        simp only [scanStops, decide_eq_true_eq] at hstop
        omega
      rw [if_neg hstop] at hn
      cases ok with
      | false =>
        rw [if_neg (by simp)] at hn
        rw [TreeNode.allNodes_mk] at hn
        rcases List.mem_cons.mp hn with rfl | hn2
        · simpa using hd
        · simp only [TreeNode.allNodesList_cons, TreeNode.allNodes_mk,
            TreeNode.allNodesList_nil, List.append_nil] at hn2
          rcases List.mem_singleton.mp hn2 with rfl
          simpa using hdk
      | true =>
        rw [if_pos rfl, TreeNode.allNodes_mk] at hn
        rcases List.mem_cons.mp hn with rfl | hn2
        · simpa using hd
        · rcases mem_allNodesList.mp hn2 with ⟨c, hcmem, hnc⟩
          rcases List.mem_map.mp hcmem with ⟨x, hx, rfl⟩
          have hxcs : x ∈ cs := (mem_filterHidden.mp (mem_sortEntries.mp hx)).1
          exact scan_depth_le_list cs x hxcs sh k (d + 1) hdk n hnc
theorem scan_depth_le_list (cs : List FS) : ∀ c ∈ cs, ∀ (sh : Bool) (k d : Nat),
    d ≤ k → ∀ n ∈ (FS.scan sh (some k) c d).allNodes, n.depth ≤ k := by
  intro c hc
  cases cs with
  | nil => simp at hc
  | cons e es =>
    rcases List.mem_cons.mp hc with rfl | hc2
    · exact scan_depth_le c
    · exact scan_depth_le_list es c hc2
end

theorem self_mem_allNodes (t : TreeNode) : t ∈ t.allNodes := by
  cases t
  rw [TreeNode.allNodes_mk]
  exact List.mem_cons_self _ _

/-! ## Claims -/

/-- C1, counterexample: with maxDepth = 0 on a directory holding one file,
the recursive implementation renders the file but the iterative one renders
nothing, so the two implementations do not produce identical output for
every maxDepth option. -/
theorem c1_counterexample :
    generate_tree_original
        (PathTarget.dirAt "r" (FS.dir "r" true [FS.file "a"])) (some 0) false ≠
      generate_tree_optimized
        (PathTarget.dirAt "r" (FS.dir "r" true [FS.file "a"])) (some 0) false := by
  have hL : generate_tree_original
      (PathTarget.dirAt "r" (FS.dir "r" true [FS.file "a"])) (some 0) false =
      ["└── " ++ "a"] := by
    show origScan false (some 0) (FS.dir "r" true [FS.file "a"]) 0 = _
    rw [origScan_dir]
    simp +decide [origStops, sortEntries, filterHidden, headIs, List.insertionSort,
      List.orderedInsert, withLast_single, connector, FS.isDir, FS.name]
  have hR : generate_tree_optimized
      (PathTarget.dirAt "r" (FS.dir "r" true [FS.file "a"])) (some 0) false = [] := by
    show tree_to_lines_optimized
      (scan_directory_optimized (FS.dir "r" true [FS.file "a"]) (some 0) false) = _
    unfold scan_directory_optimized
    rw [scan_dir]
    simp +decide [scanStops, tree_to_lines_optimized]
  rw [hL, hR]
  simp

/-- C1, amended: on a filesystem tree whose directories are all readable and
in which no entry below the root is a directory named with a leading opening
bracket, the recursive implementation produces exactly the lines of the
iterative one run with the depth bound raised by one (and the identical
lines when maxDepth is absent, since bump none = none); the two iterative
wrappers generate_tree and generate_tree_optimized agree on all inputs. -/
theorem c1_recursive_iterative_agree (raw nmr : String) (cs : List FS) (sh : Bool)
    (md : Option Nat)
    (hread : FS.allReadable (FS.dir nmr true cs) = true)
    (hgood : FS.goodNames (FS.dir nmr true cs) = true) :
    generate_tree_original (PathTarget.dirAt raw (FS.dir nmr true cs)) md sh =
      generate_tree_optimized (PathTarget.dirAt raw (FS.dir nmr true cs)) (bump md) sh ∧
    (∀ (t : PathTarget) (md2 : Option Nat) (sh2 : Bool),
      generate_tree t md2 sh2 = generate_tree_optimized t md2 sh2) := by
  constructor
  · show origScan sh md (FS.dir nmr true cs) 0 =
      tree_to_lines_optimized
        (scan_directory_optimized (FS.dir nmr true cs) (bump md) sh)
    rw [origScan_eq_scan (FS.dir nmr true cs) sh md 0 hread hgood rfl]
    rw [tree_to_lines_eq_spec]
    rfl
  · intro t md2 sh2
    cases t <;> rfl

/-- C1, witness: a concrete readable two-level tree on which the amended
equivalence is instantiated at maxDepth = 1. -/
theorem c1_witness :
    FS.allReadable (FS.dir "root" true
      [FS.dir "b" true [FS.file "x.txt"], FS.file "a.txt"]) = true ∧
    FS.goodNames (FS.dir "root" true
      [FS.dir "b" true [FS.file "x.txt"], FS.file "a.txt"]) = true ∧
    generate_tree_original (PathTarget.dirAt "root" (FS.dir "root" true
        [FS.dir "b" true [FS.file "x.txt"], FS.file "a.txt"])) (some 1) false =
      generate_tree_optimized (PathTarget.dirAt "root" (FS.dir "root" true
        [FS.dir "b" true [FS.file "x.txt"], FS.file "a.txt"])) (bump (some 1)) false :=
  ⟨by decide, by decide,
    (c1_recursive_iterative_agree "root" "root"
      [FS.dir "b" true [FS.file "x.txt"], FS.file "a.txt"] false (some 1)
      (by decide) (by decide)).1⟩

/-- C2, counterexample: with the default sink selected and the clipboard
library unavailable (the import failed), the program does not fall back to
printing: it prints nothing on stdout and exits 1. -/
theorem c2_counterexample :
    (main_run ⟨"root", none, none, false, false⟩
        ⟨true, true, FS.dir "root" true [], false, true, "", true, ""⟩).exit_code = 1 ∧
    (main_run ⟨"root", none, none, false, false⟩
        ⟨true, true, FS.dir "root" true [], false, true, "", true, ""⟩).stdout = [] := by
  constructor <;> rfl

/-- C2, amended: with the default sink selected on a valid root, an
unavailable clipboard library aborts with exit code 1 and no fallback
output, while an available library whose copy call fails degrades
gracefully: the copy error is reported on the diagnostic stream, the
fallback announcement and the rendered document go to stdout, and the
process exits 0. -/
theorem c2_clipboard (a : Args) (w : SysWorld)
    (hf : a.file = none) (hp : a.print = false)
    (he : w.root_exists = true) (hd : w.root_is_dir = true) :
    (w.clipboard_available = false →
      (main_run a w).exit_code = 1 ∧ (main_run a w).stdout = [] ∧
      (main_run a w).stderr = ["Generating folder structure...",
        "Error: pyperclip not installed. Use --print or --file instead.",
        "Install with: rye add pyperclip"]) ∧
    (w.clipboard_available = true → w.copy_ok = false →
      (main_run a w).exit_code = 0 ∧
      (main_run a w).stdout = ["Falling back to print:",
        format_output w.rootFS
          (generate_tree (PathTarget.dirAt a.directory w.rootFS) a.depth a.all)] ∧
      (main_run a w).stderr = ["Generating folder structure...",
        "Error copying to clipboard: " ++ w.copy_error]) := by
  constructor
  · intro hc
    simp [main_run, he, hd, hf, hp, hc]
  · intro hc hcopy
    simp [main_run, he, hd, hf, hp, hc, hcopy]

/-- C2, witness: the graceful degradation branch instantiated on a concrete
world whose clipboard copy fails. -/
theorem c2_witness :
    (main_run ⟨"root", none, none, false, false⟩
        ⟨true, true, FS.dir "root" true [], true, true, "", false, "boom"⟩).exit_code = 0 ∧
    (main_run ⟨"root", none, none, false, false⟩
        ⟨true, true, FS.dir "root" true [], true, true, "", false, "boom"⟩).stdout =
      ["Falling back to print:",
        format_output (FS.dir "root" true [])
          (generate_tree (PathTarget.dirAt "root" (FS.dir "root" true []))
            none false)] :=
  ⟨((c2_clipboard ⟨"root", none, none, false, false⟩
      ⟨true, true, FS.dir "root" true [], true, true, "", false, "boom"⟩
      rfl rfl rfl rfl).2 rfl rfl).1,
   ((c2_clipboard ⟨"root", none, none, false, false⟩
      ⟨true, true, FS.dir "root" true [], true, true, "", false, "boom"⟩
      rfl rfl rfl rfl).2 rfl rfl).2.1⟩

/-- C9, confirmed: a missing root yields the NotFound diagnostic and a root
that is not a directory the NotADirectory diagnostic, from generate_tree as
well as from main, which prints nothing, produces no tree and exits 1 in
both cases; every successful delivery (file write, stdout print, clipboard
copy) exits 0, and a failing file write exits 1. -/
theorem c9_root_validation (a : Args) (w : SysWorld) :
    (∀ (raw : String) (md : Option Nat) (sh : Bool),
      generate_tree (PathTarget.absent raw) md sh =
        ["Error: Directory '" ++ raw ++ "' does not exist"] ∧
      generate_tree (PathTarget.nonDir raw) md sh =
        ["Error: '" ++ raw ++ "' is not a directory"]) ∧
    (w.root_exists = false →
      (main_run a w).exit_code = 1 ∧ (main_run a w).stdout = [] ∧
      (main_run a w).stderr =
        ["Error: Directory '" ++ a.directory ++ "' does not exist"]) ∧
    (w.root_exists = true → w.root_is_dir = false →
      (main_run a w).exit_code = 1 ∧ (main_run a w).stdout = [] ∧
      (main_run a w).stderr = ["Error: '" ++ a.directory ++ "' is not a directory"]) ∧
    (w.root_exists = true → w.root_is_dir = true →
      ((∀ fpath : String, a.file = some fpath → w.file_write_ok = true →
        (main_run a w).exit_code = 0) ∧
       (∀ fpath : String, a.file = some fpath → w.file_write_ok = false →
        (main_run a w).exit_code = 1) ∧
       (a.file = none → a.print = true → (main_run a w).exit_code = 0) ∧
       (a.file = none → a.print = false → w.clipboard_available = true →
         w.copy_ok = true → (main_run a w).exit_code = 0))) := by
  refine ⟨fun raw md sh => ⟨rfl, rfl⟩, ?_, ?_, ?_⟩
  · intro he
    simp [main_run, he]
  · intro he hd
    simp [main_run, he, hd]
  · intro he hd
    refine ⟨?_, ?_, ?_, ?_⟩
    · intro fpath hfile hok
      simp [main_run, he, hd, hfile, hok]
    · intro fpath hfile hok
      simp [main_run, he, hd, hfile, hok]
    · intro hfile hprint
      simp [main_run, he, hd, hfile, hprint]
    · intro hfile hprint hclip hcopy
      simp [main_run, he, hd, hfile, hprint, hclip, hcopy]

/-- C9, witness: the missing-root branch on a concrete world. -/
theorem c9_witness :
    (main_run ⟨"nope", none, none, false, false⟩
        ⟨false, false, FS.file "x", true, true, "", true, ""⟩).exit_code = 1 ∧
    (main_run ⟨"nope", none, none, false, false⟩
        ⟨false, false, FS.file "x", true, true, "", true, ""⟩).stdout = [] :=
  ⟨((c9_root_validation ⟨"nope", none, none, false, false⟩
      ⟨false, false, FS.file "x", true, true, "", true, ""⟩).2.1 rfl).1,
   ((c9_root_validation ⟨"nope", none, none, false, false⟩
      ⟨false, false, FS.file "x", true, true, "", true, ""⟩).2.1 rfl).2.1⟩

/-- C3, counterexample: a real directory whose name starts with an opening
bracket is rendered without the slash suffix, so not every directory node
gets the suffix. -/
theorem c3_counterexample :
    generate_tree
        (PathTarget.dirAt "r" (FS.dir "r" true [FS.dir "[d]" true []])) none false =
      ["└── " ++ "[d]"] ∧
    ("└── " ++ "[d]" : String) ≠ "└── " ++ "[d]" ++ "/" := by
  constructor
  · show tree_to_lines_optimized
      (scan_directory_optimized (FS.dir "r" true [FS.dir "[d]" true []]) none false) = _
    unfold scan_directory_optimized
    rw [scan_dir]
    simp +decide [scan_dir, scan_file, scanStops, sortEntries, filterHidden, headIs,
      List.insertionSort, List.orderedInsert, tree_to_lines_optimized, withLast_single,
      renderLoop_cons, renderLoop_nil, connector, dispName, indentSuffix]
  · decide

/-- C3, amended: the rendered lines are exactly the visited nodes mapped to
prefix, connector and display name, where a directory node gets the slash
suffix precisely when its name does not start with an opening bracket, and a
non-directory node (the sentinel included) is rendered with its name
unmodified. -/
theorem c3_display (root : TreeNode) :
    tree_to_lines_optimized root = (visitChildren "" root.children).map lineOf ∧
    (∀ p ∈ visitChildren "" root.children,
      (p.2.2.is_dir = true → headIs '[' p.2.2.name = false →
        lineOf p = p.1 ++ connector p.2.1 ++ p.2.2.name ++ "/") ∧
      (p.2.2.is_dir = true → headIs '[' p.2.2.name = true →
        lineOf p = p.1 ++ connector p.2.1 ++ p.2.2.name) ∧
      (p.2.2.is_dir = false → lineOf p = p.1 ++ connector p.2.1 ++ p.2.2.name)) := by
  constructor
  · rw [tree_to_lines_eq_spec, renderSpecChildren_eq_visit]
  · intro p _
    refine ⟨?_, ?_, ?_⟩
    · intro hdir hbr
      unfold lineOf dispName
      rw [hdir, hbr]
      simp [String.append_assoc]
    · intro hdir hbr
      unfold lineOf dispName
      rw [hdir, hbr]
      simp
    · intro hdir
      unfold lineOf dispName
      rw [hdir]
      simp

/-- C3, witness: the display rule instantiated on a one-directory tree. -/
theorem c3_witness :
    lineOf ("", true, TreeNode.mk "b" true [] 1) =
      "" ++ connector true ++ "b" ++ "/" :=
  ((c3_display (TreeNode.mk "r" true [TreeNode.mk "b" true [] 1] 0)).2
    ("", true, TreeNode.mk "b" true [] 1)
    (List.mem_singleton.mpr rfl)).1 rfl (by decide)

/-- C4, confirmed: the iterative renderer produces exactly the lines of the
specified recursive rendering, in which a sibling group is rendered from its
last-flag assignment (true exactly on the final sibling) and every node line
is the accumulated ancestor prefix, its own connector and its display name,
with descendants inheriting the indent suffix of their parent flag. -/
theorem c4_connectors :
    (∀ root : TreeNode,
      tree_to_lines_optimized root = renderSpecChildren "" root.children) ∧
    (∀ (pfx : String) (cs : List TreeNode),
      renderSpecChildren pfx cs =
        ((withLast cs).map (fun p => renderSpecNode pfx p.2 p.1)).flatten) ∧
    (∀ (cs : List TreeNode),
      (withLast cs).map (fun p => p.2) =
        List.replicate (cs.length - 1) false ++
          (if cs.length = 0 then [] else [true])) ∧
    (∀ (pfx : String) (is_last : Bool) (n : TreeNode),
      renderSpecNode pfx is_last n =
        (pfx ++ connector is_last ++ dispName n) ::
          renderSpecChildren (pfx ++ indentSuffix is_last) n.children) :=
  ⟨tree_to_lines_eq_spec, renderSpecChildren_flatten, withLast_flags,
    renderSpecNode_eq⟩

/-- C5, confirmed: with a depth bound k every node of the scanned tree sits
at depth at most k, and without a bound the scan reaches every visible
entry: the tree holds one node for the root, one per reachable visible
entry, and one sentinel per unreadable directory it tried to list. -/
theorem c5_depth_invariant (sh : Bool) (k : Nat) (f : FS) :
    (∀ n ∈ (scan_directory_optimized f (some k) sh).allNodes, n.depth ≤ k) ∧
    ((scan_directory_optimized f none sh).allNodes.length =
      1 + FS.visibleCount sh f + FS.deniedCount sh f) := by
  constructor
  · intro n hn
    exact scan_depth_le f sh k 0 (Nat.zero_le k) n hn
  · exact scan_count f sh 0

/-- C5, witness: the depth bound instantiated at the root node of a concrete
scan. -/
theorem c5_witness :
    scan_directory_optimized (FS.dir "r" true [FS.file "a"]) (some 1) false ∈
      (scan_directory_optimized (FS.dir "r" true [FS.file "a"]) (some 1) false).allNodes ∧
    (scan_directory_optimized (FS.dir "r" true [FS.file "a"]) (some 1) false).depth ≤ 1 :=
  ⟨self_mem_allNodes _,
    (c5_depth_invariant false 1 (FS.dir "r" true [FS.file "a"])).1 _
      (self_mem_allNodes _)⟩

/-- C6, confirmed: in every node of the scanned tree the children are
pairwise ordered: a directory never follows a file, and within a class the
lowered names ascend. -/
theorem c6_sort_invariant (f : FS) (md : Option Nat) (sh : Bool) (n : TreeNode)
    (hn : n ∈ (scan_directory_optimized f md sh).allNodes) :
    n.children.Pairwise siblingLe :=
  scan_pairwise f sh md 0 n hn

/-- C6, witness: the sort invariant instantiated at the root of a concrete
scan. -/
theorem c6_witness :
    scan_directory_optimized (FS.dir "r" true [FS.file "a"]) none false ∈
      (scan_directory_optimized (FS.dir "r" true [FS.file "a"]) none false).allNodes ∧
    (scan_directory_optimized (FS.dir "r" true [FS.file "a"]) none false).children.Pairwise
      siblingLe :=
  ⟨self_mem_allNodes _,
    c6_sort_invariant (FS.dir "r" true [FS.file "a"]) none false _
      (self_mem_allNodes _)⟩

/-- C7, confirmed: scanning with hidden entries excluded yields no node
whose name starts with the dot anywhere below the root - an excluded entry
is not enumerated, so its whole subtree is absent - and scanning with
includeHidden set equals a scanner with the filter step removed, so hidden
entries follow exactly the rules applied to every other entry. -/
theorem c7_hidden_invariant (md : Option Nat) (f : FS) :
    (∀ c ∈ (scan_directory_optimized f md false).children,
      ∀ n ∈ c.allNodes, headIs '.' n.name = false) ∧
    (∀ (g : FS) (d : Nat), FS.scan true md g d = FS.scanAll md g d) := by
  constructor
  · intro c hc n hn
    cases f with
    | file nm =>
      rw [show scan_directory_optimized (FS.file nm) md false =
        TreeNode.mk nm false [] 0 from scan_file false md nm 0] at hc
      simp at hc
    | dir nm ok cs =>
      unfold scan_directory_optimized at hc
      rw [scan_dir] at hc
      by_cases hstop : scanStops md 0 = true
      · rw [if_pos hstop] at hc
        simp at hc
      · rw [if_neg hstop] at hc
        cases ok with
        | false =>
          rw [if_neg (by simp)] at hc
          rw [TreeNode.children_mk] at hc
          rcases List.mem_singleton.mp hc with rfl
          rw [TreeNode.allNodes_mk, TreeNode.allNodesList_nil] at hn
          rcases List.mem_singleton.mp hn with rfl
          rw [TreeNode.name_mk]
          decide
        | true =>
          rw [if_pos rfl, TreeNode.children_mk] at hc
          rcases List.mem_map.mp hc with ⟨x, hx, rfl⟩
          have hxm := mem_filterHidden.mp (mem_sortEntries.mp hx)
          have hxdot : headIs '.' x.name = false := by
            have := hxm.2
            simpa using this
          exact scan_hidden_free x md (0 + 1) n hxdot hn
  · intro g d
    exact scan_true_eq_scanAll g md d

/-- C7, witness: a concrete child of a filtered scan, whose name is checked
not to be hidden. -/
theorem c7_witness :
    (TreeNode.mk "a" false [] 1 ∈
      (scan_directory_optimized (FS.dir "r" true [FS.file "a"]) none false).children) ∧
    headIs '.' (TreeNode.mk "a" false [] 1).name = false := by
  have hc : TreeNode.mk "a" false [] 1 ∈
      (scan_directory_optimized (FS.dir "r" true [FS.file "a"]) none false).children := by
    unfold scan_directory_optimized
    rw [scan_dir]
    simp +decide [scan_file, scanStops, sortEntries, filterHidden, headIs,
      List.insertionSort, List.orderedInsert]
  exact ⟨hc, (c7_hidden_invariant none (FS.dir "r" true [FS.file "a"])).1 _ hc _
    (self_mem_allNodes _)⟩

/-- C8, confirmed: a directory whose listing fails contributes exactly the
one sentinel child and no real children, and the failure stays local: the
scan is total and a readable directory always yields one child per visible
entry, in sorted order with the names preserved, whatever failures occur
among those entries. -/
theorem c8_access_error (sh : Bool) (md : Option Nat) (d : Nat) (nm : String)
    (cs : List FS) (h : scanStops md d = false) :
    (FS.scan sh md (FS.dir nm false cs) d).children =
      [TreeNode.mk "[Permission Denied]" false [] (d + 1)] ∧
    (∀ (pnm : String) (sibs : List FS),
      ((FS.scan sh md (FS.dir pnm true sibs) d).children.map TreeNode.name) =
        ((sortEntries (filterHidden sh sibs)).map FS.name)) := by
  constructor
  · rw [scan_dir, if_neg (by simp [h]), if_neg (by simp)]
    rfl
  · intro pnm sibs
    rw [scan_dir, if_neg (by simp [h]), if_pos rfl, TreeNode.children_mk,
      List.map_map]
    apply List.map_congr_left
    intro x hx
    simp only [Function.comp]
    exact scan_name sh md x (d + 1)

/-- C8, witness: the sentinel substitution on a concrete unreadable
directory listed next to a readable sibling. -/
theorem c8_witness :
    scanStops none 1 = false ∧
    (FS.scan false none (FS.dir "locked" false []) 1).children =
      [TreeNode.mk "[Permission Denied]" false [] (1 + 1)] ∧
    ((FS.scan false none (FS.dir "top" true
        [FS.dir "locked" false [], FS.file "a"]) 1).children.map TreeNode.name) =
      ((sortEntries (filterHidden false
        [FS.dir "locked" false [], FS.file "a"])).map FS.name) :=
  ⟨rfl, (c8_access_error false none 1 "locked" [] rfl).1,
    (c8_access_error false none 1 "locked" [] rfl).2 "top"
      [FS.dir "locked" false [], FS.file "a"]⟩

/-- C10, confirmed: when a listing fails the sentinel is the only child of
the failed directory, hence a last sibling, and rendering that directory
node emits exactly two lines: the directory line with its own connector and
the sentinel line with the last-sibling connector. -/
theorem c10_sentinel_last (sh : Bool) (md : Option Nat) (d : Nat) (nm : String)
    (cs : List FS) (pfx : String) (b : Bool) (h : scanStops md d = false) :
    (FS.scan sh md (FS.dir nm false cs) d).children =
      [TreeNode.mk "[Permission Denied]" false [] (d + 1)] ∧
    renderLoop [(FS.scan sh md (FS.dir nm false cs) d, pfx, b)] =
      [pfx ++ connector b ++ dispName (FS.scan sh md (FS.dir nm false cs) d),
       (pfx ++ indentSuffix b) ++ "└── " ++ "[Permission Denied]"] := by
  have hch : (FS.scan sh md (FS.dir nm false cs) d).children =
      [TreeNode.mk "[Permission Denied]" false [] (d + 1)] := by
    rw [scan_dir, if_neg (by simp [h]), if_neg (by simp)]
    rfl
  refine ⟨hch, ?_⟩
  rw [renderLoop_cons, hch]
  simp only [withLast_single, List.map_cons, List.map_nil, List.append_nil,
    renderLoop_cons, TreeNode.children_mk, withLast_nil, renderLoop_nil]
  rfl

/-- C10, witness: the two rendered lines of a concrete unreadable
directory. -/
theorem c10_witness :
    scanStops none 0 = false ∧
    renderLoop [(FS.scan false none (FS.dir "locked" false []) 0, "", true)] =
      ["" ++ connector true ++ dispName (FS.scan false none (FS.dir "locked" false []) 0),
       ("" ++ indentSuffix true) ++ "└── " ++ "[Permission Denied]"] :=
  ⟨rfl, (c10_sentinel_last false none 0 "locked" [] "" true rfl).2⟩
